import Mathlib

/-!
Verification of the `merkle-tree` repository (src/merkle.rs).

The Rust code implements a binary Merkle tree over SHA3-256 digests:
`MerkleTree::new` builds the level structure bottom-up, `generate_proof`
extracts a sibling path for an element, `verify` recomputes the root from a
leaf digest and a sibling path, and `add` appends a leaf and repairs the
affected path in place.

Embedding conventions:
* byte strings (`&[u8]`) are `List Nat`;
* the SHA3-256 digest type `[u8; 32]` is modelled as the free term algebra
  `Hash` with one constructor for leaf hashing and one for pair hashing.
  This is the usual idealisation of a collision-free hash: `hash` and
  `concat_hash` are injective and have disjoint ranges.  All structural
  claims hold for any choice of hash function; only negative statements
  (a perturbed input fails to verify) use injectivity;
* `Vec<T>` is `List T`, `Result` is `Except`, in-place mutation of the
  tree becomes explicit state passing (`MerkleTree → MerkleTree`);
* Rust `.unwrap()` calls on `Option` are modelled with `Option.getD` and a
  junk default; every such call site is unreachable (the option is `some`)
  for the trees the theorems quantify over.
-/

namespace Merkle

/-- Free digest algebra standing for the SHA3-256 digests (`type Hash = [u8; 32]`).
`Hash.leaf d` stands for `Sha3_256::digest(d)`, `Hash.node l r` for
`Sha3_256(l || r)`. -/
inductive Hash : Type where
  | leaf (data : List Nat) : Hash
  | node (left right : Hash) : Hash
deriving DecidableEq, Repr

/-- `fn hash(value: &[u8]) -> Hash`: hashes an array of bytes. -/
def hash (value : List Nat) : Hash := Hash.leaf value

/-- `fn concat_hash(left: &Hash, right: &Hash) -> Hash`: concatenates two
digests and hashes the result. -/
def concat_hash (left right : Hash) : Hash := Hash.node left right

/-- `enum MerkleError { NonExistingElement }` -/
inductive MerkleError : Type where
  | NonExistingElement
deriving DecidableEq, Repr

/-- `struct MerkleTree { tree: Vec<Vec<Hash>> }`; first level is the leaves,
last level the root. -/
structure MerkleTree : Type where
  tree : List (List Hash)
deriving DecidableEq, Repr

/-- `struct Proof { hashes: Vec<Hash>, index: usize, root: Hash }` -/
structure Proof : Type where
  hashes : List Hash
  index : Nat
  root : Hash
deriving DecidableEq, Repr

/-- One iteration of the `while` loop of `MerkleTree::build`: derive the next
level from `previous_level`, scanning even indices and pairing each entry with
its right neighbour, or with itself when the neighbour does not exist. -/
def buildLevel : List Hash → List Hash
  | [] => []
  | [a] => [concat_hash a a]
  | a :: b :: rest => concat_hash a b :: buildLevel rest

/-- Fuel-indexed helper for `buildFrom`; the fuel only serves to make the
recursion structural (hence kernel-computable), and is irrelevant as soon as
it is at least `level.length` (see `buildFromFuel_congr`). -/
def buildFromFuel : Nat → List Hash → List (List Hash)
  | 0, _ => []
  | fuel + 1, level =>
      if level.length ≤ 1 then []
      else buildLevel level :: buildFromFuel fuel (buildLevel level)

/-- The levels pushed above `level` by the `while` loop of `MerkleTree::build`:
keep deriving levels until a level of length one (the root) is reached.
(On a level of length 0 the Rust loop would push empty levels forever; that
state is unreachable from the public API, and we return `[]` there.) -/
def buildFrom (level : List Hash) : List (List Hash) :=
  buildFromFuel level.length level

/-- `fn build(&mut self)`: private function to build a tree bottom up from the
last level currently present. -/
def MerkleTree.build (m : MerkleTree) : MerkleTree :=
  match m.tree.getLast? with
  | none => m
  | some lvl => ⟨m.tree ++ buildFrom lvl⟩

/-- `fn new(data: &Vec<&[u8]>) -> MerkleTree` -/
def MerkleTree.new (data : List (List Nat)) : MerkleTree :=
  if data.isEmpty then ⟨[]⟩
  else MerkleTree.build ⟨[data.map hash]⟩

/-- `leaves.iter().position(|x| *x == value_hash)` -/
def position (target : Hash) : List Hash → Option Nat
  | [] => none
  | x :: xs => if x = target then some 0 else (position target xs).map (fun i => i + 1)

/-- `fn search_index(&self, value: &[u8]) -> Option<usize>` -/
def MerkleTree.search_index (m : MerkleTree) (value : List Nat) : Option Nat :=
  match m.tree.head? with
  | some leaves => position (hash value) leaves
  | none => none

/-- `fn get_root(&self) -> Option<&Hash>` -/
def MerkleTree.get_root (m : MerkleTree) : Option Hash :=
  match m.tree.getLast? with
  | some root_level => root_level.head?
  | none => none

/-- The `for level in &self.tree` loop of `generate_proof`: collect the sibling
hash at each level, walking bottom-up and stopping at the first level of
length one.  `level[actual_index]?.getD (hash [])` models
`level.get(actual_index).unwrap()`; the `none` case is unreachable for the
trees considered. -/
def proofWalk : List (List Hash) → Nat → List Hash
  | [], _ => []
  | level :: rest, actual_index =>
      if level.length = 1 then []
      else
        let sibling_index := if actual_index % 2 = 0 then actual_index + 1
                             else actual_index - 1
        let collected := match level[sibling_index]? with
          | some h => h
          | none => level[actual_index]?.getD (hash [])
        collected :: proofWalk rest (actual_index / 2)

/-- `fn generate_proof(&self, value: &[u8]) -> Result<Proof, MerkleError>`.
The receiver is taken by shared reference in Rust (`&self`), so the tree is
never modified; the functional embedding makes this explicit by not returning
a tree.  `(m.get_root).getD (hash [])` models `self.get_root().unwrap()`,
whose `none` case is unreachable once `search_index` succeeded on a tree built
by the public API. -/
def MerkleTree.generate_proof (m : MerkleTree) (value : List Nat) :
    Except MerkleError Proof :=
  match m.search_index value with
  | none => Except.error MerkleError.NonExistingElement
  | some element_index =>
      Except.ok { hashes := proofWalk m.tree element_index
                , index := element_index
                , root := (m.get_root).getD (hash []) }

/-- The `for proof_hash in proof` loop of `verify`: fold the sibling hashes
into the running digest, concatenating on the side given by the parity of the
running index. -/
def verifyLoop : List Hash → Hash → Nat → Hash
  | [], actual_hash, _ => actual_hash
  | proof_hash :: rest, actual_hash, actual_index =>
      verifyLoop rest
        (if actual_index % 2 = 0 then concat_hash actual_hash proof_hash
         else concat_hash proof_hash actual_hash)
        (actual_index / 2)

/-- `fn verify(&self, proof: &Vec<Hash>, leaf: &Hash, root: &Hash, index: usize) -> bool`.
The receiver `_m` is unused, exactly as `&self` is unused in the Rust body. -/
def MerkleTree.verify (_m : MerkleTree) (proof : List Hash) (leaf : Hash)
    (root : Hash) (index : Nat) : Bool :=
  decide (verifyLoop proof leaf index = root)

/-- Modelled from the spec's words in §4.4 (for the refinement claim C4): the
pure fold `current := pairDigest(current, sibling)` or
`pairDigest(sibling, current)` by parity of `i`, with `i := i / 2` after each
step, finally compared with `root`. -/
def verify_spec (hashes : List Hash) (leafDigest root : Hash) (index : Nat) : Bool :=
  (hashes.foldl
      (fun s siblingDigest =>
        ((if s.2 % 2 = 0 then concat_hash s.1 siblingDigest
          else concat_hash siblingDigest s.1), s.2 / 2))
      ((leafDigest, index) : Hash × Nat)).1 == root

/-- `match self.tree[i + 1].get(actual_index) { Some(_) => overwrite, None => push }` -/
def updateOrPush (level : List Hash) (i : Nat) (h : Hash) : List Hash :=
  if i < level.length then level.set i h else level ++ [h]

/-- The body of one `add` loop iteration: the new parent digest of the entry
at `actual_index`, pairing it with its sibling (or itself when the sibling is
absent), self on the left when the index is even and on the right when odd.
`current_level[actual_index]?.getD (hash [])` models the Rust `.unwrap()`,
unreachable (`some`) in the states `add` visits. -/
def newParent (current_level : List Hash) (actual_index : Nat) : Hash :=
  let sibling_index := if actual_index % 2 = 0 then actual_index + 1
                       else actual_index - 1
  let self_hash := current_level[actual_index]?.getD (hash [])
  let sibling_hash := current_level[sibling_index]?.getD self_hash
  if actual_index % 2 = 0 then concat_hash self_hash sibling_hash
  else concat_hash sibling_hash self_hash

/-- The `for i in 0..self.tree.len() - 1` loop of `add`: at each level compute
the parent of the entry at `actual_index` and overwrite-or-push it into the
level above.  The first argument is the current level, the second the levels
above it; each processed level is re-emitted, updated. -/
def addLoop : List Hash → List (List Hash) → Nat → List (List Hash)
  | current_level, [], _ => [current_level]
  | current_level, next :: rest, actual_index =>
      current_level ::
        addLoop (updateOrPush next (actual_index / 2) (newParent current_level actual_index))
          rest (actual_index / 2)

/-- The final step of `add`: if the last level now has exactly two digests, the
tree has grown past a power-of-two boundary and a new root level is pushed. -/
def raiseRoot (t : List (List Hash)) : List (List Hash) :=
  match t.getLast? with
  | some [a, b] => t ++ [[concat_hash a b]]
  | _ => t

/-- `fn add(&mut self, value: &[u8])`, as a function on trees.
`get_mut_leaves` creates an empty leaf level when the tree has none, then the
new leaf digest is pushed; a first-ever leaf returns immediately. -/
def MerkleTree.add (m : MerkleTree) (value : List Nat) : MerkleTree :=
  let new_leaf := hash value
  match m.tree with
  | [] => ⟨[[new_leaf]]⟩
  | leaves :: rest =>
      let pushed := leaves ++ [new_leaf]
      if pushed.length = 1 then ⟨pushed :: rest⟩
      else ⟨raiseRoot (addLoop pushed rest (pushed.length - 1))⟩

/-- Well-formedness of a level stack: every non-top level has at least two
entries and is followed by the level it derives, and the top level is a
singleton.  Trees built by `MerkleTree.new` on non-empty input satisfy this. -/
def chainOk : List (List Hash) → Prop
  | [] => True
  | [lvl] => lvl.length = 1
  | a :: b :: rest => 2 ≤ a.length ∧ b = buildLevel a ∧ chainOk (b :: rest)

/-- Relation between an old level and the level `add` turns it into: either a
digest was appended at the end, or the final digest was replaced. -/
inductive Ext : List Hash → List Hash → Prop where
  | app (d : List Hash) (u : Hash) : Ext d (d ++ [u])
  | rep (d : List Hash) (w u : Hash) : Ext (d ++ [w]) (d ++ [u])

/-! ## Basic level lemmas -/

theorem buildLevel_length (l : List Hash) :
    (buildLevel l).length = (l.length + 1) / 2 := by
  induction l using buildLevel.induct with
  | case1 => simp [buildLevel]
  | case2 a => simp [buildLevel]
  | case3 a b rest ih => simp only [buildLevel, List.length_cons, ih]; omega

theorem buildFromFuel_congr (f1 : Nat) :
    ∀ (f2 : Nat) (l : List Hash), l.length ≤ f1 → l.length ≤ f2 →
      buildFromFuel f1 l = buildFromFuel f2 l := by
  induction f1 with
  | zero =>
      intro f2 l h1 _
      obtain rfl := List.length_eq_zero.mp (Nat.le_zero.mp h1)
      cases f2 <;> simp [buildFromFuel]
  | succ f1 ih =>
      intro f2 l h1 h2
      cases f2 with
      | zero =>
          obtain rfl := List.length_eq_zero.mp (Nat.le_zero.mp h2)
          simp [buildFromFuel]
      | succ f2 =>
          rw [buildFromFuel, buildFromFuel]
          by_cases hs : l.length ≤ 1
          · rw [if_pos hs, if_pos hs]
          · rw [if_neg hs, if_neg hs]
            congr 1
            exact ih f2 (buildLevel l)
              (by rw [buildLevel_length]; omega)
              (by rw [buildLevel_length]; omega)

theorem buildFrom_eq (l : List Hash) :
    buildFrom l = if l.length ≤ 1 then []
      else buildLevel l :: buildFrom (buildLevel l) := by
  unfold buildFrom
  by_cases hs : l.length ≤ 1
  · rw [if_pos hs]
    cases l with
    | nil => rfl
    | cons a t =>
        have ht : t = [] := by
          simp only [List.length_cons] at hs
          exact List.length_eq_zero.mp (by omega)
        subst ht
        rfl
  · rw [if_neg hs]
    obtain ⟨n, hn⟩ : ∃ n, l.length = n + 1 := ⟨l.length - 1, by omega⟩
    rw [hn, buildFromFuel, if_neg hs]
    congr 1
    exact buildFromFuel_congr n (buildLevel l).length (buildLevel l)
      (by rw [buildLevel_length]; omega) le_rfl

/-- Entry `j` of the derived level is the pair digest of entries `2j`, `2j+1`. -/
theorem buildLevel_get_pair (l : List Hash) (j : Nat) (x y : Hash)
    (hx : l[2 * j]? = some x) (hy : l[2 * j + 1]? = some y) :
    (buildLevel l)[j]? = some (concat_hash x y) := by
  induction l using buildLevel.induct generalizing j with
  | case1 => simp at hx
  | case2 a =>
      rcases j with _ | j
      · simp at hy
      · rw [List.getElem?_eq_none (by simp; omega)] at hx
        cases hx
  | case3 a b rest ih =>
      rcases j with _ | j
      · simp at hx hy
        simp [buildLevel, hx, hy]
      · have h2 : 2 * (j + 1) = 2 * j + 1 + 1 := by omega
        rw [h2] at hx hy
        simp only [List.getElem?_cons_succ] at hx hy
        simpa [buildLevel] using ih j hx hy

/-- Entry `j` of the derived level pairs a final lone entry with itself. -/
theorem buildLevel_get_lone (l : List Hash) (j : Nat) (x : Hash)
    (hx : l[2 * j]? = some x) (hy : l[2 * j + 1]? = none) :
    (buildLevel l)[j]? = some (concat_hash x x) := by
  induction l using buildLevel.induct generalizing j with
  | case1 => simp at hx
  | case2 a =>
      rcases j with _ | j
      · simp at hx
        simp [buildLevel, hx]
      · rw [List.getElem?_eq_none (by simp; omega)] at hx
        cases hx
  | case3 a b rest ih =>
      rcases j with _ | j
      · simp at hy
      · have h2 : 2 * (j + 1) = 2 * j + 1 + 1 := by omega
        rw [h2] at hx hy
        simp only [List.getElem?_cons_succ] at hx hy
        simpa [buildLevel] using ih j hx hy

/-! ## Well-formedness of trees built by `new` -/

theorem chainOk_buildFrom_aux (n : Nat) :
    ∀ l : List Hash, l.length ≤ n → l ≠ [] → chainOk (l :: buildFrom l) := by
  induction n with
  | zero =>
      intro l hlen hne
      exact absurd (List.length_eq_zero.mp (Nat.le_zero.mp hlen)) hne
  | succ n ih =>
      intro l hlen hne
      by_cases h1 : l.length ≤ 1
      · have hl1 : l.length = 1 := by
          have := List.length_pos.mpr hne; omega
        obtain ⟨x, rfl⟩ := List.length_eq_one.mp hl1
        rw [buildFrom_eq]
        simp [chainOk]
      · rw [buildFrom_eq, if_neg h1]
        refine ⟨by omega, rfl, ?_⟩
        have hlt : (buildLevel l).length ≤ n := by
          rw [buildLevel_length]; omega
        have hbne : buildLevel l ≠ [] := by
          have : 0 < (buildLevel l).length := by rw [buildLevel_length]; omega
          exact List.ne_nil_of_length_pos this
        exact ih (buildLevel l) hlt hbne

theorem chainOk_buildFrom (l : List Hash) (hne : l ≠ []) :
    chainOk (l :: buildFrom l) :=
  chainOk_buildFrom_aux l.length l le_rfl hne

theorem new_tree_eq (data : List (List Nat)) (hne : data ≠ []) :
    (MerkleTree.new data).tree =
      (data.map hash) :: buildFrom (data.map hash) := by
  unfold MerkleTree.new
  rw [if_neg (by simpa [List.isEmpty_iff] using hne)]
  unfold MerkleTree.build
  simp

theorem chainOk_getLast (t : List (List Hash)) (hc : chainOk t) (hne : t ≠ []) :
    ∃ r, t.getLast? = some [r] := by
  induction t with
  | nil => exact absurd rfl hne
  | cons a t ih =>
      cases t with
      | nil =>
          obtain ⟨x, rfl⟩ := List.length_eq_one.mp hc
          exact ⟨x, rfl⟩
      | cons b rest =>
          obtain ⟨-, -, hch⟩ := hc
          obtain ⟨r, hr⟩ := ih hch (by simp)
          exact ⟨r, by rw [List.getLast?_cons_cons]; exact hr⟩

theorem chainOk_get_consec (t : List (List Hash)) (hc : chainOk t) :
    ∀ i a b, t[i]? = some a → t[i + 1]? = some b → b = buildLevel a := by
  induction t with
  | nil => intro i a b ha; simp at ha
  | cons x t ih =>
      intro i a b ha hb
      cases t with
      | nil =>
          rcases i with _ | i <;> simp at ha hb
      | cons y rest =>
          obtain ⟨-, hy, hch⟩ := hc
          rcases i with _ | i
          · simp at ha hb
            subst ha; rw [← hb, hy]
          · rw [List.getElem?_cons_succ] at ha hb
            exact ih hch i a b ha hb

theorem chainOk_get_wide (t : List (List Hash)) (hc : chainOk t) :
    ∀ i a, i + 1 < t.length → t[i]? = some a → 2 ≤ a.length := by
  induction t with
  | nil => intro i a h; simp at h
  | cons x t ih =>
      intro i a hlt ha
      cases t with
      | nil => simp at hlt
      | cons y rest =>
          obtain ⟨hw, -, hch⟩ := hc
          rcases i with _ | i
          · simp at ha; subst ha; exact hw
          · simp only [List.getElem?_cons_succ] at ha
            exact ih hch i a (by simpa using Nat.lt_of_succ_lt_succ hlt) ha

/-! ## First-match search lemmas -/

theorem position_spec (target : Hash) (l : List Hash) (i : Nat)
    (h : position target l = some i) :
    l[i]? = some target ∧ ∀ k, k < i → l[k]? ≠ some target := by
  induction l generalizing i with
  | nil => simp [position] at h
  | cons x xs ih =>
      by_cases hx : x = target
      · rw [position, if_pos hx] at h
        injection h with h
        subst h
        exact ⟨by simp [hx], by omega⟩
      · rw [position, if_neg hx] at h
        obtain ⟨j, hj, hji⟩ := Option.map_eq_some'.mp h
        subst hji
        obtain ⟨h1, h2⟩ := ih j hj
        refine ⟨by simpa using h1, ?_⟩
        intro k hk
        cases k with
        | zero => simpa using hx
        | succ k =>
            simp only [List.getElem?_cons_succ]
            exact h2 k (by omega)

theorem position_mem (target : Hash) (l : List Hash) (h : target ∈ l) :
    ∃ i, position target l = some i := by
  induction l with
  | nil => simp at h
  | cons x xs ih =>
      by_cases hx : x = target
      · exact ⟨0, by rw [position, if_pos hx]⟩
      · have hxs : target ∈ xs := by
          rcases List.mem_cons.mp h with h1 | h1
          · exact absurd h1.symm hx
          · exact h1
        obtain ⟨j, hj⟩ := ih hxs
        exact ⟨j + 1, by rw [position, if_neg hx, hj]; rfl⟩

theorem position_none (target : Hash) (l : List Hash) :
    position target l = none ↔ target ∉ l := by
  induction l with
  | nil => simp [position]
  | cons x xs ih =>
      by_cases hx : x = target
      · rw [position, if_pos hx]
        simp [hx]
      · rw [position, if_neg hx]
        simp only [Option.map_eq_none']
        rw [ih]
        simp only [List.mem_cons]
        exact ⟨fun hn hm => hm.elim (fun he => hx he.symm) hn,
               fun hn hm => hn (Or.inr hm)⟩

/-! ## Root reconstruction: the proof walk folds back to the root -/

theorem walk_root (levels : List (List Hash)) :
    ∀ (idx : Nat) (h r : Hash), chainOk levels →
    (levels.headD [])[idx]? = some h →
    levels.getLast? = some [r] →
    verifyLoop (proofWalk levels idx) h idx = r := by
  induction levels with
  | nil => intro idx h r _ _ hl; simp at hl
  | cons a t ih =>
      intro idx h r hc hh hl
      cases t with
      | nil =>
          have ha : a = [r] := by simpa using hl
          subst ha
          obtain ⟨hlt, hg⟩ := List.getElem?_eq_some.mp (show ([r] : List Hash)[idx]? = some h by simpa using hh)
          have hidx : idx = 0 := by simp at hlt; omega
          subst hidx
          simp at hg
          simp [proofWalk, verifyLoop, hg]
      | cons b rest =>
          obtain ⟨ha2, hb, hch⟩ := hc
          have hh' : a[idx]? = some h := by simpa using hh
          have hlast : (b :: rest).getLast? = some [r] := by
            rw [List.getLast?_cons_cons] at hl; exact hl
          have hlen : ¬ a.length = 1 := by omega
          rcases Nat.mod_two_eq_zero_or_one idx with hpar | hpar
          · cases hsib : a[idx + 1]? with
            | some y =>
                have hstep : proofWalk (a :: b :: rest) idx =
                    y :: proofWalk (b :: rest) (idx / 2) := by
                  simp [proofWalk, hlen, hpar, hsib]
                rw [hstep, verifyLoop, if_pos hpar]
                have hb' : b[idx / 2]? = some (concat_hash h y) := by
                  subst hb
                  apply buildLevel_get_pair
                  · rw [show 2 * (idx / 2) = idx by omega]; exact hh'
                  · rw [show 2 * (idx / 2) + 1 = idx + 1 by omega]; exact hsib
                exact ih (idx / 2) _ r hch (by simpa using hb') hlast
            | none =>
                have hstep : proofWalk (a :: b :: rest) idx =
                    h :: proofWalk (b :: rest) (idx / 2) := by
                  simp [proofWalk, hlen, hpar, hsib, hh']
                rw [hstep, verifyLoop, if_pos hpar]
                have hb' : b[idx / 2]? = some (concat_hash h h) := by
                  subst hb
                  apply buildLevel_get_lone
                  · rw [show 2 * (idx / 2) = idx by omega]; exact hh'
                  · rw [show 2 * (idx / 2) + 1 = idx + 1 by omega]; exact hsib
                exact ih (idx / 2) _ r hch (by simpa using hb') hlast
          · have hlt : idx < a.length := (List.getElem?_eq_some.mp hh').1
            obtain ⟨x, hx⟩ : ∃ x, a[idx - 1]? = some x := by
              cases hg : a[idx - 1]? with
              | none => exact absurd (List.getElem?_eq_none_iff.mp hg) (by omega)
              | some x => exact ⟨x, rfl⟩
            have hstep : proofWalk (a :: b :: rest) idx =
                x :: proofWalk (b :: rest) (idx / 2) := by
              simp [proofWalk, hlen, hpar, hx]
            rw [hstep, verifyLoop, if_neg (by omega)]
            have hb' : b[idx / 2]? = some (concat_hash x h) := by
              subst hb
              apply buildLevel_get_pair
              · rw [show 2 * (idx / 2) = idx - 1 by omega]; exact hx
              · rw [show 2 * (idx / 2) + 1 = idx by omega]; exact hh'
            exact ih (idx / 2) _ r hch (by simpa using hb') hlast

/-! ## Claim C4: `verify` is a pure fold of the four arguments -/

theorem verifyLoop_eq_foldl (hs : List Hash) : ∀ (c : Hash) (i : Nat),
    verifyLoop hs c i =
      (hs.foldl
        (fun s siblingDigest =>
          ((if s.2 % 2 = 0 then concat_hash s.1 siblingDigest
            else concat_hash siblingDigest s.1), s.2 / 2))
        ((c, i) : Hash × Nat)).1 := by
  induction hs with
  | nil => intro c i; rfl
  | cons x t ih =>
      intro c i
      rw [verifyLoop, List.foldl_cons]
      exact ih _ _

/-- Claim C4: `verify(hashes, leaf, root, index)` equals the pure fold over
the sibling hashes (left concatenation on even running index, right on odd,
halving the index each step, finally comparing with `root`), and its result
does not depend on the receiver tree. -/
theorem C4_verify_is_pure_fold (m m' : MerkleTree) (hashes : List Hash)
    (leaf root : Hash) (index : Nat) :
    MerkleTree.verify m hashes leaf root index
        = verify_spec hashes leaf root index ∧
    MerkleTree.verify m hashes leaf root index
        = MerkleTree.verify m' hashes leaf root index := by
  refine ⟨?_, rfl⟩
  unfold MerkleTree.verify verify_spec
  rw [verifyLoop_eq_foldl]
  rcases eq_or_ne ((hashes.foldl
      (fun s siblingDigest =>
        ((if s.2 % 2 = 0 then concat_hash s.1 siblingDigest
          else concat_hash siblingDigest s.1), s.2 / 2))
      ((leaf, index) : Hash × Nat)).1) root with h | h <;>
    simp [h]

/-! ## Claim C10: proofs on a single-level tree -/

/-- Claim C10: on a tree whose only level is the single digest of `value`,
`generate_proof` succeeds with an empty hash list, index 0 and the leaf digest
itself as root, and `verify` accepts that proof. -/
theorem C10_single_level_tree (m : MerkleTree) (value : List Nat)
    (h : m.tree = [[hash value]]) :
    m.generate_proof value = Except.ok ⟨[], 0, hash value⟩ ∧
    MerkleTree.verify m [] (hash value) (hash value) 0 = true := by
  constructor
  · unfold MerkleTree.generate_proof MerkleTree.search_index MerkleTree.get_root
    rw [h]
    simp [position, proofWalk]
  · simp [MerkleTree.verify, verifyLoop]

theorem C10_single_level_tree_witness :
    (MerkleTree.new [[5]]).generate_proof [5] = Except.ok ⟨[], 0, hash [5]⟩ ∧
    MerkleTree.verify (MerkleTree.new [[5]]) [] (hash [5]) (hash [5]) 0 = true :=
  C10_single_level_tree (MerkleTree.new [[5]]) [5] (by decide)

/-! ## Claim C9: duplicate leaves resolve to the first match -/

/-- Claim C9: whenever `generate_proof` succeeds, the returned index is the
first (smallest) position of `hash value` in the leaf level — in particular
with duplicate leaf digests the first occurrence wins — and the sibling path
is the walk from that position. -/
theorem C9_first_match (m : MerkleTree) (value : List Nat) (p : Proof)
    (h : m.generate_proof value = Except.ok p) :
    (m.tree.headD [])[p.index]? = some (hash value) ∧
    (∀ k, k < p.index → (m.tree.headD [])[k]? ≠ some (hash value)) ∧
    p.hashes = proofWalk m.tree p.index := by
  unfold MerkleTree.generate_proof MerkleTree.search_index at h
  cases htree : m.tree with
  | nil => rw [htree] at h; simp at h
  | cons leaves rest =>
      rw [htree] at h
      simp only [List.head?_cons] at h
      cases hpos : position (hash value) leaves with
      | none => rw [hpos] at h; simp at h
      | some i =>
          rw [hpos] at h
          simp only [Except.ok.injEq] at h
          obtain ⟨h1, h2⟩ := position_spec _ _ _ hpos
          subst h
          refine ⟨by simpa [htree] using h1, ?_, rfl⟩
          intro k hk
          simpa [htree] using h2 k hk

theorem C9_first_match_witness :
    ((MerkleTree.new [[7], [7]]).tree.headD [])[(0 : Nat)]? = some (hash [7]) ∧
    [hash [7]] = proofWalk (MerkleTree.new [[7], [7]]).tree 0 := by
  have h := C9_first_match (MerkleTree.new [[7], [7]]) [7]
    ⟨[hash [7]], 0, concat_hash (hash [7]) (hash [7])⟩ rfl
  exact ⟨h.1, h.2.2⟩

/-! ## Claim C1: proof round-trip -/

/-- Claim C1: for every non-empty input list and every element of it,
`generate_proof` on the tree built by `new` succeeds, and
`verify(proof.hashes, hash(element), proof.root, proof.index)` is true. -/
theorem C1_proof_roundtrip (data : List (List Nat)) (hne : data ≠ [])
    (elem : List Nat) (hmem : elem ∈ data) :
    ∃ p, (MerkleTree.new data).generate_proof elem = Except.ok p ∧
      MerkleTree.verify (MerkleTree.new data) p.hashes (hash elem) p.root
        p.index = true := by
  have htree := new_tree_eq data hne
  have hchain := chainOk_buildFrom (data.map hash) (by simpa using hne)
  obtain ⟨r, hr⟩ := chainOk_getLast _ hchain (by simp)
  obtain ⟨i, hi⟩ := position_mem (hash elem) (data.map hash)
    (List.mem_map_of_mem hash hmem)
  obtain ⟨hget, -⟩ := position_spec _ _ _ hi
  have hsearch : (MerkleTree.new data).search_index elem = some i := by
    unfold MerkleTree.search_index
    rw [htree]
    exact hi
  have hroot : (MerkleTree.new data).get_root = some r := by
    unfold MerkleTree.get_root
    rw [htree, hr]
    rfl
  refine ⟨⟨proofWalk (MerkleTree.new data).tree i, i, r⟩, ?_, ?_⟩
  · unfold MerkleTree.generate_proof
    rw [hsearch, hroot]
    rfl
  · have hwr := walk_root ((data.map hash) :: buildFrom (data.map hash)) i
      (hash elem) r hchain (by simpa using hget) hr
    rw [htree]
    simp [MerkleTree.verify, hwr]

theorem C1_proof_roundtrip_witness :
    (MerkleTree.new [[0], [1], [2]]).generate_proof [2] =
      Except.ok ⟨[hash [2], concat_hash (hash [0]) (hash [1])], 2,
        concat_hash (concat_hash (hash [0]) (hash [1]))
          (concat_hash (hash [2]) (hash [2]))⟩ ∧
    MerkleTree.verify (MerkleTree.new [[0], [1], [2]])
      [hash [2], concat_hash (hash [0]) (hash [1])] (hash [2])
      (concat_hash (concat_hash (hash [0]) (hash [1]))
        (concat_hash (hash [2]) (hash [2]))) 2 = true := by
  obtain ⟨p, h1, h2⟩ := C1_proof_roundtrip [[0], [1], [2]] (by decide) [2] (by decide)
  have hp : p = ⟨[hash [2], concat_hash (hash [0]) (hash [1])], 2,
      concat_hash (concat_hash (hash [0]) (hash [1]))
        (concat_hash (hash [2]) (hash [2]))⟩ :=
    Except.ok.inj (h1.symm.trans rfl)
  subst hp
  exact ⟨h1, h2⟩

/-! ## Claim C3: construction from scratch -/

/-- Claim C3: `new` on a non-empty input produces level 0 equal to the input
hashes in input order; every following level is derived pairwise — entry `j`
is `concat_hash` of entries `2j` and `2j+1`, or of entry `2j` with itself when
`2j` is the unpaired last position — its length is the ceiling half of the
previous one; levels are produced exactly until a level of length 1, which is
last, and every earlier level has length at least 2. -/
theorem C3_construction (data : List (List Nat)) (hne : data ≠ []) :
    (MerkleTree.new data).tree.headD [] = data.map hash ∧
    ((MerkleTree.new data).tree.getLast?).map List.length = some 1 ∧
    (∀ i a b, (MerkleTree.new data).tree[i]? = some a →
        (MerkleTree.new data).tree[i + 1]? = some b →
        b.length = (a.length + 1) / 2 ∧
        (∀ j x y, a[2 * j]? = some x → a[2 * j + 1]? = some y →
            b[j]? = some (concat_hash x y)) ∧
        (∀ j x, a[2 * j]? = some x → a[2 * j + 1]? = none →
            b[j]? = some (concat_hash x x))) ∧
    (∀ i a, i + 1 < (MerkleTree.new data).tree.length →
        (MerkleTree.new data).tree[i]? = some a → 2 ≤ a.length) := by
  have htree := new_tree_eq data hne
  have hchain := chainOk_buildFrom (data.map hash) (by simpa using hne)
  rw [htree]
  refine ⟨by simp, ?_, ?_, ?_⟩
  · obtain ⟨r, hr⟩ := chainOk_getLast _ hchain (by simp)
    rw [hr]
    rfl
  · intro i a b ha hbg
    have hb := chainOk_get_consec _ hchain i a b ha hbg
    subst hb
    exact ⟨buildLevel_length a,
      fun j x y hx hy => buildLevel_get_pair a j x y hx hy,
      fun j x hx hy => buildLevel_get_lone a j x hx hy⟩
  · intro i a hlt ha
    exact chainOk_get_wide _ hchain i a hlt ha

theorem C3_construction_witness :
    (MerkleTree.new [[0], [1], [2]]).tree.headD [] = [[0], [1], [2]].map hash ∧
    ((MerkleTree.new [[0], [1], [2]]).tree.getLast?).map List.length = some 1 ∧
    [concat_hash (hash [0]) (hash [1]),
      concat_hash (hash [2]) (hash [2])][(0 : Nat)]? =
        some (concat_hash (hash [0]) (hash [1])) ∧
    [concat_hash (hash [0]) (hash [1]),
      concat_hash (hash [2]) (hash [2])][(1 : Nat)]? =
        some (concat_hash (hash [2]) (hash [2])) := by
  have h := C3_construction [[0], [1], [2]] (by decide)
  have hlvl := h.2.2.1 0 [hash [0], hash [1], hash [2]]
    [concat_hash (hash [0]) (hash [1]), concat_hash (hash [2]) (hash [2])]
    rfl rfl
  exact ⟨h.1, h.2.1,
    hlvl.2.1 0 (hash [0]) (hash [1]) rfl rfl,
    hlvl.2.2 1 (hash [2]) rfl rfl⟩

/-! ## Incremental append: `add` agrees with rebuilding from scratch -/

theorem set_append_last (xs : List Hash) (a b : Hash) :
    (xs ++ [a]).set xs.length b = xs ++ [b] := by
  induction xs with
  | nil => rfl
  | cons x t ih => simp [List.set, ih]

theorem updateOrPush_push (l : List Hash) (h : Hash) :
    updateOrPush l l.length h = l ++ [h] := by
  simp [updateOrPush]

theorem updateOrPush_set_last (xs : List Hash) (a b : Hash) :
    updateOrPush (xs ++ [a]) xs.length b = xs ++ [b] := by
  rw [updateOrPush, if_pos (by simp), set_append_last]

theorem buildLevel_append_even (d : List Hash) (u : Hash) (h : d.length % 2 = 0) :
    buildLevel (d ++ [u]) = buildLevel d ++ [concat_hash u u] := by
  induction d using buildLevel.induct with
  | case1 => rfl
  | case2 a => simp at h
  | case3 a b rest ih =>
      have h' : rest.length % 2 = 0 := by simp [List.length_cons] at h; omega
      simp only [List.cons_append, buildLevel]
      exact congrArg _ (ih h')

theorem buildLevel_append_pair (d : List Hash) (v u : Hash) (h : d.length % 2 = 0) :
    buildLevel (d ++ [v, u]) = buildLevel d ++ [concat_hash v u] := by
  induction d using buildLevel.induct with
  | case1 => rfl
  | case2 a => simp at h
  | case3 a b rest ih =>
      have h' : rest.length % 2 = 0 := by simp [List.length_cons] at h; omega
      simp only [List.cons_append, buildLevel]
      exact congrArg _ (ih h')

theorem newParent_even (d : List Hash) (u : Hash) (h : d.length % 2 = 0) :
    newParent (d ++ [u]) d.length = concat_hash u u := by
  have hnone : (d ++ [u])[d.length + 1]? = none :=
    List.getElem?_eq_none (by simp)
  simp [newParent, h, List.getElem?_concat_length, hnone]

theorem newParent_odd (d2 : List Hash) (v u : Hash) (h : d2.length % 2 = 0) :
    newParent (d2 ++ [v, u]) (d2.length + 1) = concat_hash v u := by
  have hv : (d2 ++ [v, u])[d2.length]? = some v := by
    rw [List.getElem?_append_right le_rfl]
    simp
  have hu : (d2 ++ [v, u])[d2.length + 1]? = some u := by
    rw [List.getElem?_append_right (by omega)]
    simp
  have hodd : (d2.length + 1) % 2 = 1 := by omega
  simp [newParent, hodd, hu, hv]

theorem ext_length (c c' : List Hash) (h : Ext c c') : c.length ≤ c'.length := by
  cases h <;> simp

/-- One level of the `add` loop, applied to a level in the `Ext` relation with
its old value, overwrites-or-pushes exactly the digest that turns the derived
level of the old value into the derived level of the new value; the derived
levels are again in the `Ext` relation, and the halved index is again the last
position. -/
theorem ext_step_app (d : List Hash) (u : Hash) :
    updateOrPush (buildLevel d) (((d ++ [u]).length - 1) / 2)
        (newParent (d ++ [u]) ((d ++ [u]).length - 1))
        = buildLevel (d ++ [u]) ∧
    Ext (buildLevel d) (buildLevel (d ++ [u])) ∧
    ((d ++ [u]).length - 1) / 2 = (buildLevel (d ++ [u])).length - 1 := by
  rcases Nat.mod_two_eq_zero_or_one d.length with hpar | hpar
  · have hidx : (d ++ [u]).length - 1 = d.length := by simp
    rw [hidx, newParent_even d u hpar, buildLevel_append_even d u hpar]
    have hlen : (buildLevel d).length = d.length / 2 := by
      rw [buildLevel_length]; omega
    refine ⟨?_, Ext.app _ _, ?_⟩
    · rw [show d.length / 2 = (buildLevel d).length by omega]
      exact updateOrPush_push _ _
    · simp only [List.length_append, List.length_singleton]
      omega
  · have hdne : d ≠ [] := by
      intro hd; rw [hd] at hpar; simp at hpar
    obtain ⟨d2, v, rfl⟩ : ∃ d2 v, d = d2 ++ [v] :=
      ⟨d.dropLast, d.getLast hdne, (List.dropLast_append_getLast hdne).symm⟩
    have h2 : d2.length % 2 = 0 := by
      simp only [List.length_append, List.length_singleton] at hpar; omega
    have hassoc : (d2 ++ [v]) ++ [u] = d2 ++ [v, u] := by simp
    have hidx : (d2 ++ [v, u]).length - 1 = d2.length + 1 := by simp
    rw [hassoc, hidx, newParent_odd d2 v u h2,
      buildLevel_append_even d2 v h2, buildLevel_append_pair d2 v u h2]
    have hlen : (buildLevel d2).length = d2.length / 2 := by
      rw [buildLevel_length]; omega
    refine ⟨?_, Ext.rep _ _ _, ?_⟩
    · rw [show (d2.length + 1) / 2 = (buildLevel d2).length by omega]
      exact updateOrPush_set_last _ _ _
    · simp only [List.length_append, List.length_singleton]
      omega

theorem ext_step_rep (d : List Hash) (w u : Hash) :
    updateOrPush (buildLevel (d ++ [w])) (((d ++ [u]).length - 1) / 2)
        (newParent (d ++ [u]) ((d ++ [u]).length - 1))
        = buildLevel (d ++ [u]) ∧
    Ext (buildLevel (d ++ [w])) (buildLevel (d ++ [u])) ∧
    ((d ++ [u]).length - 1) / 2 = (buildLevel (d ++ [u])).length - 1 := by
  rcases Nat.mod_two_eq_zero_or_one d.length with hpar | hpar
  · have hidx : (d ++ [u]).length - 1 = d.length := by simp
    rw [hidx, newParent_even d u hpar, buildLevel_append_even d w hpar,
      buildLevel_append_even d u hpar]
    have hlen : (buildLevel d).length = d.length / 2 := by
      rw [buildLevel_length]; omega
    refine ⟨?_, Ext.rep _ _ _, ?_⟩
    · rw [show d.length / 2 = (buildLevel d).length by omega]
      exact updateOrPush_set_last _ _ _
    · simp only [List.length_append, List.length_singleton]
      omega
  · have hdne : d ≠ [] := by
      intro hd; rw [hd] at hpar; simp at hpar
    obtain ⟨d2, v, rfl⟩ : ∃ d2 v, d = d2 ++ [v] :=
      ⟨d.dropLast, d.getLast hdne, (List.dropLast_append_getLast hdne).symm⟩
    have h2 : d2.length % 2 = 0 := by
      simp only [List.length_append, List.length_singleton] at hpar; omega
    have hassocw : (d2 ++ [v]) ++ [w] = d2 ++ [v, w] := by simp
    have hassocu : (d2 ++ [v]) ++ [u] = d2 ++ [v, u] := by simp
    have hidx : (d2 ++ [v, u]).length - 1 = d2.length + 1 := by simp
    rw [hassocw, hassocu, hidx, newParent_odd d2 v u h2,
      buildLevel_append_pair d2 v w h2, buildLevel_append_pair d2 v u h2]
    have hlen : (buildLevel d2).length = d2.length / 2 := by
      rw [buildLevel_length]; omega
    refine ⟨?_, Ext.rep _ _ _, ?_⟩
    · rw [show (d2.length + 1) / 2 = (buildLevel d2).length by omega]
      exact updateOrPush_set_last _ _ _
    · simp only [List.length_append, List.length_singleton]
      omega

/-- One level of the `add` loop, applied to a level in the `Ext` relation with
its old value, overwrites-or-pushes exactly the digest that turns the derived
level of the old value into the derived level of the new value; the derived
levels are again in the `Ext` relation, and the halved index is again the last
position. -/
theorem ext_step (c c' : List Hash) (hext : Ext c c') :
    updateOrPush (buildLevel c) ((c'.length - 1) / 2) (newParent c' (c'.length - 1))
        = buildLevel c' ∧
    Ext (buildLevel c) (buildLevel c') ∧
    (c'.length - 1) / 2 = (buildLevel c').length - 1 := by
  cases hext with
  | app d u => exact ext_step_app _ _
  | rep d w u => exact ext_step_rep _ _ _

theorem addLoop_ne_nil (cur : List Hash) (above : List (List Hash)) (idx : Nat) :
    addLoop cur above idx ≠ [] := by
  cases above <;> simp [addLoop]

theorem raiseRoot_cons (a : List Hash) (t : List (List Hash)) (h : t ≠ []) :
    raiseRoot (a :: t) = a :: raiseRoot t := by
  cases t with
  | nil => exact absurd rfl h
  | cons b rest =>
      rw [raiseRoot, raiseRoot, List.getLast?_cons_cons]
      cases hg : (b :: rest).getLast? with
      | none => simp
      | some lvl => rcases lvl with _ | ⟨x, _ | ⟨y, _ | ⟨z, tl⟩⟩⟩ <;> simp

/-- Heart of the append equivalence: running the `add` loop (followed by the
possible root raise) over the stack built from the old leaf level, with the
new leaf level as current level and its last position as index, yields
exactly the stack built from the new leaf level. -/
theorem addLoop_base_app (d : List Hash) (u : Hash) (hs : d.length ≤ 1) :
    raiseRoot (addLoop (d ++ [u]) (buildFrom d) ((d ++ [u]).length - 1))
      = (d ++ [u]) :: buildFrom (d ++ [u]) := by
  rcases d with _ | ⟨a, _ | ⟨b, t⟩⟩
  · rfl
  · rfl
  · simp at hs

theorem addLoop_base_rep (d : List Hash) (w u : Hash) (hs : (d ++ [w]).length ≤ 1) :
    raiseRoot (addLoop (d ++ [u]) (buildFrom (d ++ [w])) ((d ++ [u]).length - 1))
      = (d ++ [u]) :: buildFrom (d ++ [u]) := by
  have hd : d = [] := by
    simp only [List.length_append, List.length_singleton] at hs
    exact List.length_eq_zero.mp (by omega)
  subst hd
  rfl

/-- Heart of the append equivalence: running the `add` loop (followed by the
possible root raise) over the stack built from the old leaf level, with the
new leaf level as current level and its last position as index, yields
exactly the stack built from the new leaf level. -/
theorem addLoop_buildFrom_aux (n : Nat) :
    ∀ c c', c.length ≤ n → Ext c c' →
      raiseRoot (addLoop c' (buildFrom c) (c'.length - 1)) = c' :: buildFrom c' := by
  induction n with
  | zero =>
      intro c c' hlen hext
      cases hext with
      | app d u => exact addLoop_base_app _ _ (by omega)
      | rep d w u => exact addLoop_base_rep _ _ _ (by omega)
  | succ n ih =>
      intro c c' hlen hext
      by_cases hs : c.length ≤ 1
      · cases hext with
        | app d u => exact addLoop_base_app _ _ (by omega)
        | rep d w u => exact addLoop_base_rep _ _ _ (by omega)
      · rw [buildFrom_eq c, if_neg hs, addLoop]
        obtain ⟨hup, hextB, hidx⟩ := ext_step c c' hext
        rw [hup, hidx]
        rw [raiseRoot_cons _ _ (addLoop_ne_nil _ _ _)]
        rw [ih (buildLevel c) (buildLevel c')
          (by rw [buildLevel_length]; omega) hextB]
        rw [buildFrom_eq c', if_neg (by
          have := ext_length c c' hext; omega)]

/-- `add` computes exactly the tree that `new` builds on the extended input. -/
theorem add_new (data : List (List Nat)) (e : List Nat) :
    (MerkleTree.new data).add e = MerkleTree.new (data ++ [e]) := by
  rcases data with _ | ⟨d0, drest⟩
  · rfl
  · have hne : (d0 :: drest) ≠ ([] : List (List Nat)) := by simp
    have htree : (MerkleTree.new (d0 :: drest)).tree =
        ((d0 :: drest).map hash) :: buildFrom ((d0 :: drest).map hash) :=
      new_tree_eq _ hne
    have hadd : (MerkleTree.new (d0 :: drest)).add e =
        ⟨raiseRoot (addLoop (((d0 :: drest).map hash) ++ [hash e])
          (buildFrom ((d0 :: drest).map hash))
          ((((d0 :: drest).map hash) ++ [hash e]).length - 1))⟩ := by
      simp only [MerkleTree.add, htree]
      rw [if_neg (by simp)]
    rw [hadd]
    have hmain := addLoop_buildFrom_aux ((d0 :: drest).map hash).length
      ((d0 :: drest).map hash) (((d0 :: drest).map hash) ++ [hash e])
      le_rfl (Ext.app _ _)
    have htree' : (MerkleTree.new ((d0 :: drest) ++ [e])).tree =
        (((d0 :: drest).map hash) ++ [hash e])
          :: buildFrom (((d0 :: drest).map hash) ++ [hash e]) := by
      rw [new_tree_eq _ (by simp)]
      simp
    rw [hmain, ← htree']

theorem foldl_add_new (adds : List (List Nat)) :
    ∀ data, List.foldl MerkleTree.add (MerkleTree.new data) adds
      = MerkleTree.new (data ++ adds) := by
  induction adds with
  | nil => intro data; simp
  | cons e adds ih =>
      intro data
      rw [List.foldl_cons, add_new, ih]
      simp

/-! ## Claim C2: append equivalence -/

/-- Claim C2: for non-empty `data`, building from `data ++ [e]` directly and
building from `data` then calling `add e` give the same level contents (the
same list of levels, hence the same digest at every position). -/
theorem C2_append_equivalence (data : List (List Nat)) (e : List Nat)
    (hne : data ≠ []) :
    ((MerkleTree.new data).add e).tree = (MerkleTree.new (data ++ [e])).tree := by
  rw [add_new]

theorem C2_append_equivalence_witness :
    ((MerkleTree.new [[0], [1]]).add [2]).tree
      = (MerkleTree.new [[0], [1], [2]]).tree :=
  C2_append_equivalence [[0], [1]] [2] (by decide)

/-! ## Claim C5: `generate_proof` fails exactly on absent digests -/

/-- Claim C5: on any tree reachable from `new` and `add`, `generate_proof`
returns `Err(NonExistingElement)` iff `hash value` is not among the level-0
digests (in particular always on a tree with zero levels); otherwise it
returns `Ok` with a proof.  The tree is never modified: `generate_proof` takes
the receiver by shared reference and, in this embedding, returns no tree. -/
theorem C5_nonexisting_element (data adds : List (List Nat)) (value : List Nat) :
    ((List.foldl MerkleTree.add (MerkleTree.new data) adds).generate_proof value
        = Except.error MerkleError.NonExistingElement
      ↔ hash value ∉
          ((List.foldl MerkleTree.add (MerkleTree.new data) adds).tree.headD [])) ∧
    (hash value ∈
        ((List.foldl MerkleTree.add (MerkleTree.new data) adds).tree.headD []) →
      ∃ p, (List.foldl MerkleTree.add (MerkleTree.new data) adds).generate_proof
        value = Except.ok p) := by
  rw [foldl_add_new]
  by_cases hds : data ++ adds = []
  · rw [hds]
    have hT : (MerkleTree.new ([] : List (List Nat))).tree = [] := rfl
    exact ⟨⟨fun _ => by simp [hT], fun _ => rfl⟩,
      fun hmem => absurd hmem (by simp [hT])⟩
  · have htree := new_tree_eq _ hds
    have hsi : (MerkleTree.new (data ++ adds)).search_index value
        = position (hash value) ((data ++ adds).map hash) := by
      unfold MerkleTree.search_index
      rw [htree]
      rfl
    have hgen : ∀ i, (MerkleTree.new (data ++ adds)).search_index value = some i →
        ∃ p, (MerkleTree.new (data ++ adds)).generate_proof value = Except.ok p :=
      fun i hs => ⟨_, by unfold MerkleTree.generate_proof; rw [hs]⟩
    constructor
    · constructor
      · intro herr hmem
        obtain ⟨i, hi⟩ := position_mem (hash value) ((data ++ adds).map hash)
          (by simpa [htree] using hmem)
        obtain ⟨p, hp⟩ := hgen i (by rw [hsi]; exact hi)
        rw [herr] at hp
        cases hp
      · intro hnot
        have hpos : position (hash value) ((data ++ adds).map hash) = none :=
          (position_none _ _).mpr (by simpa [htree] using hnot)
        unfold MerkleTree.generate_proof
        rw [hsi, hpos]
    · intro hmem
      obtain ⟨i, hi⟩ := position_mem (hash value) ((data ++ adds).map hash)
        (by simpa [htree] using hmem)
      exact hgen i (by rw [hsi]; exact hi)

theorem C5_nonexisting_element_witness :
    ((MerkleTree.new [[0]]).generate_proof [1]
        = Except.error MerkleError.NonExistingElement
      ↔ hash [1] ∉ ((MerkleTree.new [[0]]).tree.headD [])) ∧
    (hash [1] ∈ ((MerkleTree.new [[0]]).tree.headD []) →
      ∃ p, (MerkleTree.new [[0]]).generate_proof [1] = Except.ok p) :=
  C5_nonexisting_element [[0]] [] [1]

/-! ## Claim C6: level-shape invariants of reachable trees -/

theorem chainOk_ne_nil (t : List (List Hash)) (hc : chainOk t) :
    ∀ lvl ∈ t, lvl ≠ [] := by
  induction t with
  | nil => intro lvl hl; simp at hl
  | cons a t ih =>
      intro lvl hl
      cases t with
      | nil =>
          have : lvl = a := by simpa using hl
          subst this
          exact List.ne_nil_of_length_pos (by rw [hc]; omega)
      | cons b rest =>
          obtain ⟨h2, -, hch⟩ := hc
          rcases List.mem_cons.mp hl with rfl | hl'
          · exact List.ne_nil_of_length_pos (by omega)
          · exact ih hch lvl hl'

/-- Claim C6: every tree reachable from `new` followed by `add` calls has zero
levels when no element was ever supplied; once it has at least one leaf, no
level is empty, the last level is a singleton, and each level is followed by a
level of half its length rounded up. -/
theorem C6_level_shape (data adds : List (List Nat)) :
    (data = [] ∧ adds = [] →
      (List.foldl MerkleTree.add (MerkleTree.new data) adds).tree = []) ∧
    ((List.foldl MerkleTree.add (MerkleTree.new data) adds).tree.headD [] ≠ [] →
      (∀ lvl ∈ (List.foldl MerkleTree.add (MerkleTree.new data) adds).tree,
          lvl ≠ []) ∧
      (((List.foldl MerkleTree.add (MerkleTree.new data) adds).tree.getLast?).map
          List.length = some 1) ∧
      (∀ i a b,
          (List.foldl MerkleTree.add (MerkleTree.new data) adds).tree[i]? = some a →
          (List.foldl MerkleTree.add (MerkleTree.new data) adds).tree[i + 1]? = some b →
          b.length = (a.length + 1) / 2)) := by
  rw [foldl_add_new]
  constructor
  · rintro ⟨rfl, rfl⟩
    rfl
  · intro hne
    have hds : data ++ adds ≠ [] := by
      intro h
      rw [h] at hne
      exact hne rfl
    have htree := new_tree_eq _ hds
    have hchain := chainOk_buildFrom ((data ++ adds).map hash) (by simpa using hds)
    rw [htree]
    refine ⟨fun lvl hl => chainOk_ne_nil _ hchain lvl hl, ?_, ?_⟩
    · obtain ⟨r, hr⟩ := chainOk_getLast _ hchain (by simp)
      rw [hr]
      rfl
    · intro i a b ha hb
      have hab := chainOk_get_consec _ hchain i a b ha hb
      subst hab
      exact buildLevel_length a

theorem C6_level_shape_witness :
    ([[0]] = ([] : List (List Nat)) ∧ [[1], [2]] = ([] : List (List Nat)) →
      (List.foldl MerkleTree.add (MerkleTree.new [[0]]) [[1], [2]]).tree = []) ∧
    ((List.foldl MerkleTree.add (MerkleTree.new [[0]]) [[1], [2]]).tree.headD []
        ≠ [] →
      (∀ lvl ∈ (List.foldl MerkleTree.add (MerkleTree.new [[0]]) [[1], [2]]).tree,
          lvl ≠ []) ∧
      (((List.foldl MerkleTree.add (MerkleTree.new [[0]]) [[1], [2]]).tree.getLast?).map
          List.length = some 1) ∧
      (∀ i a b,
          (List.foldl MerkleTree.add (MerkleTree.new [[0]]) [[1], [2]]).tree[i]?
            = some a →
          (List.foldl MerkleTree.add (MerkleTree.new [[0]]) [[1], [2]]).tree[i + 1]?
            = some b →
          b.length = (a.length + 1) / 2)) :=
  C6_level_shape [[0]] [[1], [2]]

/-! ## Claim C7: height of reachable trees -/

theorem buildFrom_height (n : Nat) :
    ∀ l : List Hash, l.length ≤ n → l ≠ [] →
      (l :: buildFrom l).length = Nat.clog 2 l.length + 1 := by
  induction n with
  | zero =>
      intro l hlen hne
      exact absurd (List.length_eq_zero.mp (Nat.le_zero.mp hlen)) hne
  | succ n ih =>
      intro l hlen hne
      by_cases hs : l.length ≤ 1
      · have h1 : l.length = 1 := by
          have := List.length_pos.mpr hne
          omega
        rw [buildFrom_eq, if_pos hs]
        simp [h1, Nat.clog_one_right]
      · rw [buildFrom_eq, if_neg hs]
        have hb := ih (buildLevel l)
          (by rw [buildLevel_length]; omega)
          (List.ne_nil_of_length_pos (by rw [buildLevel_length]; omega))
        simp only [List.length_cons] at hb ⊢
        rw [buildLevel_length] at hb
        have hc : Nat.clog 2 l.length = Nat.clog 2 ((l.length + 1) / 2) + 1 := by
          rw [Nat.clog_of_two_le (by omega) (by omega),
            show l.length + 2 - 1 = l.length + 1 by omega]
        omega

/-- Claim C7: a reachable tree with `L ≥ 1` leaves has exactly
`ceil(log2 L) + 1` levels (so a single-leaf tree has one level). -/
theorem C7_height (data adds : List (List Nat))
    (h : 1 ≤ ((List.foldl MerkleTree.add (MerkleTree.new data) adds).tree.headD
        []).length) :
    (List.foldl MerkleTree.add (MerkleTree.new data) adds).tree.length =
      Nat.clog 2 ((List.foldl MerkleTree.add
        (MerkleTree.new data) adds).tree.headD []).length + 1 := by
  rw [foldl_add_new] at h ⊢
  have hds : data ++ adds ≠ [] := by
    intro he
    rw [he] at h
    simp [MerkleTree.new] at h
  have htree := new_tree_eq _ hds
  rw [htree] at h ⊢
  simp only [List.headD_cons] at h ⊢
  exact buildFrom_height ((data ++ adds).map hash).length _ le_rfl
    (by simpa using hds)

theorem C7_height_witness :
    (List.foldl MerkleTree.add (MerkleTree.new [[0], [1], [2]])
      [[3], [4]]).tree.length =
      Nat.clog 2 ((List.foldl MerkleTree.add (MerkleTree.new [[0], [1], [2]])
        [[3], [4]]).tree.headD []).length + 1 :=
  C7_height [[0], [1], [2]] [[3], [4]] (by decide)

/-! ## Claim C8: perturbed proofs fail to verify -/

/-- Two distinct running digests stay distinct under the verification fold,
whatever the indices: the pair digest is injective in the modelled hash
algebra, and a swap of sides can only collide when both operands coincide. -/
theorem verifyLoop_ne (hs : List Hash) :
    ∀ (c c' : Hash) (i j : Nat), c ≠ c' →
      verifyLoop hs c i ≠ verifyLoop hs c' j := by
  induction hs with
  | nil =>
      intro c c' i j hne
      simpa [verifyLoop] using hne
  | cons h t ih =>
      intro c c' i j hne
      rw [verifyLoop, verifyLoop]
      apply ih
      rcases Nat.mod_two_eq_zero_or_one i with hi | hi <;>
        rcases Nat.mod_two_eq_zero_or_one j with hj | hj
      · rw [if_pos hi, if_pos hj]
        intro heq
        injection heq with h1 h2
        exact hne h1
      · rw [if_pos hi, if_neg (by omega)]
        intro heq
        injection heq with h1 h2
        exact hne (h1.trans h2)
      · rw [if_neg (by omega), if_pos hj]
        intro heq
        injection heq with h1 h2
        exact hne (h2.trans h1)
      · rw [if_neg (by omega), if_neg (by omega)]
        intro heq
        injection heq with h1 h2
        exact hne h2

/-- If two start indices first disagree in parity at step `k` (a step consumed
by the proof) and the running digest at that step differs from the supplied
sibling hash, the two verification folds end in different digests. -/
theorem verifyLoop_diverge (k : Nat) :
    ∀ (hs : List Hash) (c : Hash) (i j : Nat),
      k < hs.length →
      (∀ k', k' < k → i / 2 ^ k' % 2 = j / 2 ^ k' % 2) →
      i / 2 ^ k % 2 ≠ j / 2 ^ k % 2 →
      verifyLoop (hs.take k) c i ≠ hs.getD k (hash []) →
      verifyLoop hs c i ≠ verifyLoop hs c j := by
  induction k with
  | zero =>
      intro hs c i j hk hagree hdiff hcur
      cases hs with
      | nil => simp at hk
      | cons h t =>
          simp only [pow_zero, Nat.div_one] at hdiff
          simp only [List.take_zero, verifyLoop, List.getD_cons_zero] at hcur
          rw [verifyLoop, verifyLoop]
          rcases Nat.mod_two_eq_zero_or_one i with hi | hi
          · rw [if_pos hi, if_neg (by omega)]
            apply verifyLoop_ne
            intro heq
            injection heq with h1 h2
            exact hcur h1
          · rw [if_neg (by omega), if_pos (by omega)]
            apply verifyLoop_ne
            intro heq
            injection heq with h1 h2
            exact hcur h2
  | succ k ih =>
      intro hs c i j hk hagree hdiff hcur
      cases hs with
      | nil => simp at hk
      | cons h t =>
          have hdd : ∀ (m : Nat) (k' : Nat), m / 2 / 2 ^ k' = m / 2 ^ (k' + 1) := by
            intro m k'
            rw [Nat.div_div_eq_div_mul, ← pow_succ']
          have h0 : i % 2 = j % 2 := by
            have := hagree 0 (by omega)
            simpa using this
          rw [verifyLoop, verifyLoop]
          rcases Nat.mod_two_eq_zero_or_one i with hi | hi
          · rw [if_pos hi, if_pos (by omega)]
            refine ih t (concat_hash c h) (i / 2) (j / 2) (by simpa using hk)
              ?_ ?_ ?_
            · intro k' hk'
              rw [hdd, hdd]
              exact hagree (k' + 1) (by omega)
            · rw [hdd, hdd]
              exact hdiff
            · simpa [verifyLoop, hi] using hcur
          · rw [if_neg (by omega), if_neg (by omega)]
            refine ih t (concat_hash h c) (i / 2) (j / 2) (by simpa using hk)
              ?_ ?_ ?_
            · intro k' hk'
              rw [hdd, hdd]
              exact hagree (k' + 1) (by omega)
            · rw [hdd, hdd]
              exact hdiff
            · simpa [verifyLoop, hi] using hcur

/-- A successfully generated proof folds back exactly to its recorded root. -/
theorem generate_proof_fold (data : List (List Nat)) (hne : data ≠ [])
    (value : List Nat) (p : Proof)
    (hp : (MerkleTree.new data).generate_proof value = Except.ok p) :
    verifyLoop p.hashes (hash value) p.index = p.root := by
  have htree := new_tree_eq data hne
  have hchain := chainOk_buildFrom (data.map hash) (by simpa using hne)
  obtain ⟨r, hr⟩ := chainOk_getLast _ hchain (by simp)
  have hroot : (MerkleTree.new data).get_root = some r := by
    unfold MerkleTree.get_root
    rw [htree, hr]
    rfl
  unfold MerkleTree.generate_proof MerkleTree.search_index at hp
  rw [htree] at hp
  simp only [List.head?_cons] at hp
  cases hpos : position (hash value) (data.map hash) with
  | none => rw [hpos] at hp; cases hp
  | some i =>
      rw [hpos] at hp
      simp only [Except.ok.injEq] at hp
      subst hp
      obtain ⟨hget, -⟩ := position_spec _ _ _ hpos
      rw [hroot]
      simpa using walk_root _ i (hash value) r hchain (by simpa using hget) hr

/-- The mismatched-index clause of claim C8 is false as stated: for the proof
generated for `[0]` in the two-leaf tree on `[[0], [1]]` (true index 0), the
mismatched index 2 still verifies, because 2 agrees with 0 on the one parity
bit the proof consumes. -/
theorem C8_counterexample :
    (MerkleTree.new [[0], [1]]).generate_proof [0] =
      Except.ok ⟨[hash [1]], 0, concat_hash (hash [0]) (hash [1])⟩ ∧
    (2 : Nat) ≠ 0 ∧
    MerkleTree.verify (MerkleTree.new [[0], [1]]) [hash [1]] (hash [0])
      (concat_hash (hash [0]) (hash [1])) 2 = true :=
  ⟨rfl, by decide, by decide⟩

/-- Claim C8 (amended): for a proof generated for an element of the tree,
substituting any digest other than the element's as the leaf makes `verify`
return false, and so does any altered root; a mismatched index makes `verify`
return false provided that, at the first proof step whose parity it changes,
the running digest differs from the supplied sibling hash (indices agreeing
with the true index on every parity bit consumed by the proof — e.g. the true
index plus a high power of two — verify true, which is the counterexample). -/
theorem C8_perturbation_amended (data : List (List Nat)) (hne : data ≠ [])
    (elem : List Nat) (hmem : elem ∈ data) (p : Proof)
    (hp : (MerkleTree.new data).generate_proof elem = Except.ok p) :
    (∀ leaf', leaf' ≠ hash elem →
      MerkleTree.verify (MerkleTree.new data) p.hashes leaf' p.root
        p.index = false) ∧
    (∀ root', root' ≠ p.root →
      MerkleTree.verify (MerkleTree.new data) p.hashes (hash elem) root'
        p.index = false) ∧
    (∀ j k, k < p.hashes.length →
      (∀ k', k' < k → p.index / 2 ^ k' % 2 = j / 2 ^ k' % 2) →
      p.index / 2 ^ k % 2 ≠ j / 2 ^ k % 2 →
      verifyLoop (p.hashes.take k) (hash elem) p.index ≠ p.hashes.getD k (hash []) →
      MerkleTree.verify (MerkleTree.new data) p.hashes (hash elem) p.root
        j = false) := by
  have hfold : verifyLoop p.hashes (hash elem) p.index = p.root :=
    generate_proof_fold data hne elem p hp
  refine ⟨?_, ?_, ?_⟩
  · intro leaf' hne'
    simp only [MerkleTree.verify, decide_eq_false_iff_not]
    intro heq
    exact verifyLoop_ne p.hashes leaf' (hash elem) p.index p.index hne'
      (heq.trans hfold.symm)
  · intro root' hne'
    simp only [MerkleTree.verify, decide_eq_false_iff_not]
    rw [hfold]
    exact fun h => hne' h.symm
  · intro j k hk hagree hdiff hcur
    simp only [MerkleTree.verify, decide_eq_false_iff_not]
    intro heq
    exact verifyLoop_diverge k p.hashes (hash elem) p.index j hk hagree hdiff
      hcur (hfold.trans heq.symm)

theorem C8_perturbation_amended_witness :
    MerkleTree.verify (MerkleTree.new [[0], [1]]) [hash [1]] (hash [2])
      (concat_hash (hash [0]) (hash [1])) 0 = false ∧
    MerkleTree.verify (MerkleTree.new [[0], [1]]) [hash [1]] (hash [0])
      (hash [0]) 0 = false ∧
    MerkleTree.verify (MerkleTree.new [[0], [1]]) [hash [1]] (hash [0])
      (concat_hash (hash [0]) (hash [1])) 1 = false := by
  have h := C8_perturbation_amended [[0], [1]] (by decide) [0] (by decide)
    ⟨[hash [1]], 0, concat_hash (hash [0]) (hash [1])⟩ rfl
  exact ⟨h.1 (hash [2]) (by decide), h.2.1 (hash [0]) (by decide),
    h.2.2 1 0 (by decide) (fun k' hk' => absurd hk' (by omega)) (by decide)
      (by decide)⟩

end Merkle
